import Mathlib

/-!
Verification of the text-ingestion-and-keyword-analysis pipeline of
`src/app.py` (a Streamlit multi-source summarization agent).

The embedding below translates the pure computational core of `app.py`:

* `tokenize`       — `re.findall(r'\w+', raw_text.lower())` (line 172)
* `stop_words`     — the fixed stop-word set (line 173)
* `filterTokens`   — `[w for w in words if w not in stop_words and len(w) > 3]`
                     (line 174), with the stop-word set and the length
                     threshold lifted to parameters as in the spec contract
* `rank`           — `Counter(filtered_words).most_common(n)` (line 175);
                     CPython's `most_common(n)` is `heapq.nlargest` over the
                     counter items decorated with their insertion position,
                     i.e. the items sorted by (count descending, first-seen
                     position ascending), truncated to `n`
* `unique_count`   — `len(set(filtered_words))` (line 188)
* `truncate`       — the character slices `raw_text[:30000]` (line 116) and
                     `file_text[:25000]` (line 138)
* `extractUpload`  — the upload-time page loop `raw_text += text + "\n"`
                     guarded by `if text:` (lines 70–77)
* `file_textOf`    — `"".join([page.extract_text() for page in reader.pages
                     if page.extract_text()])` (line 130)
* `runBatch`       — the per-file batch loop (lines 127–144): `PdfReader`
                     runs OUTSIDE the per-file `try`, the summarizer call
                     runs inside it
* `runSheets`      — the Google-Sheets branch (lines 105–122)
* `dashboardOf`    — the dashboard metrics block (lines 172–194)

Python strings are modelled as `String` (a list of characters); a PDF page's
`extract_text()` result is modelled as a `String`, with `""` standing for a
page that yields no text (`None` and `""` are both falsy in the `if text:`
guards, so they behave identically in this code). The external summarizer
response is modelled as `Option String` (`none` = the API call raised).
The embedding targets ASCII text, where Python's `str.lower` is exactly
per-character `Char.toLower` and `\w` matches alphanumerics and underscore.
-/

namespace AgentApp

/-- A character matched by the regex `\w` (for ASCII text):
alphanumeric or underscore. -/
def isWordChar (c : Char) : Bool :=
  c.isAlphanum || c = '_'

/-- Scanner for `re.findall(r'\w+', s)`: `acc` holds the current run of word
characters in reverse; a non-word character (or the end of input) closes the
run. -/
def tokAux : List Char → List Char → List (List Char)
  | acc, [] => if acc.isEmpty then [] else [acc.reverse]
  | acc, c :: cs =>
    if isWordChar c then
      tokAux (c :: acc) cs
    else if acc.isEmpty then
      tokAux [] cs
    else
      acc.reverse :: tokAux [] cs

/-- Embedding of `re.findall(r'\w+', raw_text.lower())` (app.py line 172): lowercase the
text, then list the maximal runs of word characters in left-to-right order. -/
def tokenize (text : String) : List String :=
  (tokAux [] (text.toList.map Char.toLower)).map (fun cs => String.mk cs)

/-- The fixed stop-word set of app.py line 173. -/
def stop_words : List String :=
  ["the", "and", "of", "to", "in", "is", "it", "this", "that", "with",
   "for", "was", "on", "as"]

/-- Embedding of `[w for w in words if w not in stop_words and len(w) > 3]` (app.py
line 174), with the stop-word set and the length threshold lifted to
parameters as in the spec's `filter(tokens, stopwords, min_length)`
contract (the code fixes `stopwords = stop_words` and `min_length = 3`). -/
def filterTokens (tokens : List String) (stopwords : List String)
    (min_length : Nat) : List String :=
  tokens.filter (fun w => !(decide (w ∈ stopwords)) && decide (min_length < w.length))

/-- The filtered token sequence of the dashboard (app.py line 174). -/
def filteredWords (text : String) : List String :=
  filterTokens (tokenize text) stop_words 3

/-- The distinct elements of `l` in order of first appearance: the key order
of a Python `Counter` built from `l` (dict insertion order). `seen` holds
the elements already emitted. -/
def firstOccsAux : List String → List String → List String
  | _, [] => []
  | seen, x :: xs =>
    if x ∈ seen then firstOccsAux seen xs
    else x :: firstOccsAux (x :: seen) xs

/-- The distinct elements of `l` in order of first appearance. -/
def firstOccs (l : List String) : List String :=
  firstOccsAux [] l

/-- The items of `Counter(tokens)` in insertion order: each distinct token
(first-appearance order) paired with its occurrence count. -/
def countPairs (tokens : List String) : List (String × Nat) :=
  (firstOccs tokens).map (fun w => (w, tokens.count w))

/-- The order `heapq.nlargest` uses inside `Counter.most_common(n)`: items
are decorated with their position in the counter and compared by count
descending, position ascending. -/
def mcRel : Nat × (String × Nat) → Nat × (String × Nat) → Prop :=
  fun a b => b.2.2 < a.2.2 ∨ (a.2.2 = b.2.2 ∧ a.1 ≤ b.1)

instance : DecidableRel mcRel := fun a b => by
  unfold mcRel; infer_instance

instance : IsTotal (Nat × (String × Nat)) mcRel := by
  constructor
  intro a b
  unfold mcRel
  omega

instance : IsTrans (Nat × (String × Nat)) mcRel := by
  constructor
  intro a b c hab hbc
  unfold mcRel at *
  omega

/-- The counter items decorated with their insertion position and sorted the
way `Counter.most_common` sorts them (count descending, stable). -/
def sortedCounts (tokens : List String) : List (Nat × (String × Nat)) :=
  List.insertionSort mcRel (countPairs tokens).enum

/-- Embedding of `Counter(tokens).most_common(n)` (app.py line 175 uses `n = 5`): the
`n` most frequent tokens with their counts, count descending, ties in the
order the tokens first appeared. -/
def rank (tokens : List String) (top_n : Nat) : List (String × Nat) :=
  ((sortedCounts tokens).map Prod.snd).take top_n

/-- Embedding of `len(set(tokens))` (app.py line 188). -/
def unique_count (tokens : List String) : Nat :=
  tokens.toFinset.card

/-- Embedding of `doc[:limit]`: the first `limit` characters of `doc` (app.py lines 116
and 138). -/
def truncate (doc : String) (limit : Nat) : String :=
  String.mk (doc.toList.take limit)

/-- The dashboard metrics block (app.py lines 172–194), with the ranking
size lifted to a parameter (the code fixes `top_n = 5`). -/
structure Dashboard where
  data_points : Nat
  total_words : Nat
  unique_keywords : Nat
  word_counts : List (String × Nat)
  deriving Repr, DecidableEq

/-- The dashboard computed from the (full) `raw_text` (app.py lines
172–194): `words`, `filtered_words`, `word_counts` and the displayed
metrics. -/
def dashboardOf (raw_text : String) (top_n : Nat) : Dashboard :=
  let words := tokenize raw_text
  let filtered_words := filterTokens words stop_words 3
  { data_points := raw_text.length
    total_words := words.length
    unique_keywords := unique_count filtered_words
    word_counts := rank filtered_words top_n }

/-- The dashboard exactly as the code computes it, with `most_common(5)`. -/
def dashboard (raw_text : String) : Dashboard :=
  dashboardOf raw_text 5

/-! ### Helper lemmas about the tokenizer -/

theorem mem_tokAux {t : List Char} {c : Char} :
    ∀ (l acc : List Char), t ∈ tokAux acc l → c ∈ t → c ∈ acc ∨ c ∈ l := by
  intro l
  induction l with
  | nil =>
    intro acc ht hc
    simp only [tokAux] at ht
    by_cases h : acc.isEmpty
    · rw [if_pos h] at ht
      simp at ht
    · rw [if_neg h] at ht
      simp only [List.mem_singleton] at ht
      subst ht
      exact Or.inl (List.mem_reverse.mp hc)
  | cons d ds ih =>
    intro acc ht hc
    simp only [tokAux] at ht
    by_cases h : isWordChar d
    · rw [if_pos h] at ht
      rcases ih (d :: acc) ht hc with h' | h'
      · rcases List.mem_cons.mp h' with rfl | h''
        · exact Or.inr (List.mem_cons_self _ _)
        · exact Or.inl h''
      · exact Or.inr (List.mem_cons.mpr (Or.inr h'))
    · rw [if_neg h] at ht
      by_cases h' : acc.isEmpty
      · rw [if_pos h'] at ht
        rcases ih [] ht hc with h'' | h''
        · simp at h''
        · exact Or.inr (List.mem_cons.mpr (Or.inr h''))
      · rw [if_neg h'] at ht
        rcases List.mem_cons.mp ht with rfl | ht'
        · exact Or.inl (List.mem_reverse.mp hc)
        · rcases ih [] ht' hc with h'' | h''
          · simp at h''
          · exact Or.inr (List.mem_cons.mpr (Or.inr h''))

theorem toNat_ofNat_of_le {n : Nat} (h : n ≤ 122) : (Char.ofNat n).toNat = n := by
  have hv : n.isValidChar := Or.inl (by omega)
  rw [Char.ofNat, dif_pos hv]
  rfl

/-- Idempotence of `Char.toLower` (its image avoids `A`-`Z`). -/
theorem toLower_toLower (c : Char) : c.toLower.toLower = c.toLower := by
  unfold Char.toLower
  by_cases h : 65 ≤ c.toNat ∧ c.toNat ≤ 90
  · simp only [ge_iff_le, h, and_self, if_true]
    have hv : (Char.ofNat (c.toNat + 32)).toNat = c.toNat + 32 :=
      toNat_ofNat_of_le (by omega)
    rw [if_neg]
    rw [hv]
    omega
  · simp only [ge_iff_le, h, if_false]

/-- Every character of every token produced by `tokenize` is fixed by
`Char.toLower`: tokens are drawn from the lowercased text. -/
theorem tokenize_lower {text : String} {w : String} {c : Char}
    (hw : w ∈ tokenize text) (hc : c ∈ w.toList) : c.toLower = c := by
  unfold tokenize at hw
  rcases List.mem_map.mp hw with ⟨cs, hcs, hmk⟩
  have hc' : c ∈ cs := by
    have : (String.mk cs).toList = cs := rfl
    rw [← hmk] at hc
    rwa [this] at hc
  rcases mem_tokAux _ [] hcs hc' with h | h
  · simp at h
  · rcases List.mem_map.mp h with ⟨c₀, _, hc₀⟩
    rw [← hc₀]
    exact toLower_toLower c₀

/-! ### Helper lemmas about first-occurrence order and counter items -/

theorem mem_firstOccsAux {a : String} :
    ∀ (l seen : List String), a ∈ firstOccsAux seen l ↔ a ∈ l ∧ a ∉ seen := by
  intro l
  induction l with
  | nil => intro seen; simp [firstOccsAux]
  | cons x xs ih =>
    intro seen
    simp only [firstOccsAux]
    by_cases h : x ∈ seen
    · rw [if_pos h, ih]
      constructor
      · rintro ⟨hx, hs⟩
        exact ⟨List.mem_cons.mpr (Or.inr hx), hs⟩
      · rintro ⟨hx, hs⟩
        rcases List.mem_cons.mp hx with rfl | hx'
        · exact absurd h hs
        · exact ⟨hx', hs⟩
    · rw [if_neg h]
      simp only [List.mem_cons, ih]
      constructor
      · rintro (rfl | ⟨hxs, hns⟩)
        · exact ⟨Or.inl rfl, h⟩
        · exact ⟨Or.inr hxs, fun hseen => hns (Or.inr hseen)⟩
      · rintro ⟨hax | haxs, hs⟩
        · exact Or.inl hax
        · by_cases hax : a = x
          · exact Or.inl hax
          · exact Or.inr ⟨haxs, fun hin => hin.elim hax hs⟩

theorem nodup_firstOccsAux : ∀ (l seen : List String), (firstOccsAux seen l).Nodup := by
  intro l
  induction l with
  | nil => intro seen; simp [firstOccsAux]
  | cons x xs ih =>
    intro seen
    simp only [firstOccsAux]
    by_cases h : x ∈ seen
    · rw [if_pos h]; exact ih seen
    · rw [if_neg h]
      rw [List.nodup_cons]
      refine ⟨fun hx => ?_, ih (x :: seen)⟩
      exact ((mem_firstOccsAux _ _).mp hx).2 (List.mem_cons_self x seen)

theorem mem_firstOccs {a : String} {l : List String} : a ∈ firstOccs l ↔ a ∈ l := by
  unfold firstOccs
  rw [mem_firstOccsAux]
  simp

theorem nodup_firstOccs (l : List String) : (firstOccs l).Nodup :=
  nodup_firstOccsAux l []

theorem toFinset_firstOccs (l : List String) : (firstOccs l).toFinset = l.toFinset := by
  apply Finset.ext
  intro a
  simp [List.mem_toFinset, mem_firstOccs]

theorem length_firstOccs (l : List String) : (firstOccs l).length = l.toFinset.card := by
  rw [← toFinset_firstOccs]
  exact (List.toFinset_card_of_nodup (nodup_firstOccs l)).symm

/-- Ordering: `firstOccs` preserves the relative order of first appearances: for
elements of `l` not yet seen, position in `firstOccsAux seen l` is ordered
like the position of the first occurrence in `l`. -/
theorem indexOf_firstOccsAux_lt_iff {w v : String} :
    ∀ (l seen : List String), w ∈ l → v ∈ l → w ∉ seen → v ∉ seen →
      ((firstOccsAux seen l).indexOf w < (firstOccsAux seen l).indexOf v ↔
        l.indexOf w < l.indexOf v) := by
  intro l
  induction l with
  | nil => intro seen hw _ _ _; simp at hw
  | cons x xs ih =>
    intro seen hw hv hws hvs
    simp only [firstOccsAux]
    by_cases hx : x ∈ seen
    · rw [if_pos hx]
      have hwx : x ≠ w := fun h => hws (h ▸ hx)
      have hvx : x ≠ v := fun h => hvs (h ▸ hx)
      have hw' : w ∈ xs := by
        rcases List.mem_cons.mp hw with h | h
        · exact absurd h.symm hwx
        · exact h
      have hv' : v ∈ xs := by
        rcases List.mem_cons.mp hv with h | h
        · exact absurd h.symm hvx
        · exact h
      rw [List.indexOf_cons_ne _ hwx, List.indexOf_cons_ne _ hvx,
        ih seen hw' hv' hws hvs]
      omega
    · rw [if_neg hx]
      by_cases hwx : x = w
      · subst hwx
        rw [List.indexOf_cons_self, List.indexOf_cons_self]
        by_cases hvx : x = v
        · subst hvx
          rw [List.indexOf_cons_self, List.indexOf_cons_self]
        · rw [List.indexOf_cons_ne _ hvx, List.indexOf_cons_ne _ hvx]
          omega
      · by_cases hvx : x = v
        · subst hvx
          rw [List.indexOf_cons_self, List.indexOf_cons_self,
            List.indexOf_cons_ne _ hwx, List.indexOf_cons_ne _ hwx]
          omega
        · have hw' : w ∈ xs := by
            rcases List.mem_cons.mp hw with h | h
            · exact absurd h.symm hwx
            · exact h
          have hv' : v ∈ xs := by
            rcases List.mem_cons.mp hv with h | h
            · exact absurd h.symm hvx
            · exact h
          have hws' : w ∉ x :: seen := fun h =>
            (List.mem_cons.mp h).elim (fun h' => hwx h'.symm) hws
          have hvs' : v ∉ x :: seen := fun h =>
            (List.mem_cons.mp h).elim (fun h' => hvx h'.symm) hvs
          rw [List.indexOf_cons_ne _ hwx, List.indexOf_cons_ne _ hvx,
            List.indexOf_cons_ne _ hwx, List.indexOf_cons_ne _ hvx]
          have := ih (x :: seen) hw' hv' hws' hvs'
          omega

theorem firstOccs_indexOf_lt_iff {l : List String} {w v : String}
    (hw : w ∈ l) (hv : v ∈ l) :
    (firstOccs l).indexOf w < (firstOccs l).indexOf v ↔ l.indexOf w < l.indexOf v :=
  indexOf_firstOccsAux_lt_iff l [] hw hv (by simp) (by simp)

theorem indexOf_firstOccs_getElem {l : List String} {i : Nat}
    (h : i < (firstOccs l).length) :
    (firstOccs l).indexOf ((firstOccs l)[i]) = i := by
  have hm : (firstOccs l)[i] ∈ firstOccs l := List.getElem_mem h
  have hlt : (firstOccs l).indexOf ((firstOccs l)[i]) < (firstOccs l).length :=
    List.indexOf_lt_length.mpr hm
  have heq := List.getElem_indexOf hlt
  exact ((nodup_firstOccs l).getElem_inj_iff).mp heq

theorem mem_countPairs {w : String} {c : Nat} {tokens : List String} :
    (w, c) ∈ countPairs tokens ↔ w ∈ tokens ∧ c = tokens.count w := by
  unfold countPairs
  constructor
  · intro hp
    rcases List.mem_map.mp hp with ⟨u, hu, he⟩
    have h1 : u = w := congrArg Prod.fst he
    have h2 : tokens.count u = c := congrArg Prod.snd he
    subst h1
    exact ⟨mem_firstOccs.mp hu, h2.symm⟩
  · rintro ⟨h1, rfl⟩
    exact List.mem_map.mpr ⟨w, mem_firstOccs.mpr h1, rfl⟩

theorem length_countPairs (tokens : List String) :
    (countPairs tokens).length = tokens.toFinset.card := by
  unfold countPairs
  rw [List.length_map, length_firstOccs]

/-! ### Helper lemmas about `enum` and the sorted counter items -/

theorem enum_mem_spec {α : Type} {e : Nat × α} {l : List α} (he : e ∈ l.enum) :
    ∃ (j : Nat) (h : j < l.length), e = (j, l[j]) := by
  rcases List.mem_iff_getElem.mp he with ⟨j, hj, hje⟩
  have hj' : j < l.length := by
    have := hj
    rwa [List.enum_length] at this
  exact ⟨j, hj', by rw [← hje, List.getElem_enum]⟩

theorem enum_fst_inj {α : Type} {a b : Nat × α} {l : List α}
    (ha : a ∈ l.enum) (hb : b ∈ l.enum) (h : a.1 = b.1) : a = b := by
  rcases enum_mem_spec ha with ⟨i, hi, rfl⟩
  rcases enum_mem_spec hb with ⟨j, hj, rfl⟩
  simp only at h
  subst h
  rfl

theorem pairwise_fst_lt_enum {α : Type} (l : List α) :
    l.enum.Pairwise (fun a b => a.1 < b.1) := by
  have h := List.pairwise_lt_range l.length
  rw [← List.enum_map_fst l] at h
  exact List.pairwise_map.mp h

theorem nodup_enum {α : Type} (l : List α) : l.enum.Nodup :=
  (pairwise_fst_lt_enum l).imp
    (fun h he => Nat.ne_of_lt h (congrArg Prod.fst he))

theorem sortedCounts_perm (tokens : List String) :
    (sortedCounts tokens).Perm (countPairs tokens).enum :=
  List.perm_insertionSort _ _

theorem sorted_sortedCounts (tokens : List String) :
    List.Sorted mcRel (sortedCounts tokens) :=
  List.sorted_insertionSort _ _

theorem mem_sortedCounts {e : Nat × (String × Nat)} {tokens : List String} :
    e ∈ sortedCounts tokens ↔ e ∈ (countPairs tokens).enum :=
  (sortedCounts_perm tokens).mem_iff

theorem nodup_sortedCounts (tokens : List String) : (sortedCounts tokens).Nodup :=
  (sortedCounts_perm tokens).nodup_iff.mpr (nodup_enum _)

theorem length_sortedCounts (tokens : List String) :
    (sortedCounts tokens).length = tokens.toFinset.card := by
  rw [(sortedCounts_perm tokens).length_eq, List.enum_length, length_countPairs]

/-- Every decorated entry of the sorted counter list is a genuine counter
item: its word occurs in the tokens, its count is that word's occurrence
count, and its decoration is the word's first-appearance position. -/
theorem sortedCounts_entry_spec {tokens : List String} {e : Nat × (String × Nat)}
    (he : e ∈ sortedCounts tokens) :
    e.2.1 ∈ tokens ∧ e.2.2 = tokens.count e.2.1 ∧
      (firstOccs tokens).indexOf e.2.1 = e.1 := by
  have he' := mem_sortedCounts.mp he
  rcases enum_mem_spec he' with ⟨j, hj, rfl⟩
  have hj' : j < (firstOccs tokens).length := by
    have := hj
    unfold countPairs at this
    rwa [List.length_map] at this
  have hcp : (countPairs tokens)[j] =
      ((firstOccs tokens)[j], tokens.count ((firstOccs tokens)[j])) := by
    unfold countPairs
    rw [List.getElem_map]
  rw [hcp]
  exact ⟨mem_firstOccs.mp (List.getElem_mem hj'), rfl, indexOf_firstOccs_getElem hj'⟩

theorem rank_eq_map_take (tokens : List String) (n : Nat) :
    rank tokens n = ((sortedCounts tokens).take n).map Prod.snd := by
  unfold rank
  rw [List.map_take]

/-- Every entry of `rank` is a genuine counter item: the word occurs in the
tokens and the reported count is its exact occurrence count. -/
theorem mem_rank {p : String × Nat} {tokens : List String} {n : Nat}
    (hp : p ∈ rank tokens n) : p.1 ∈ tokens ∧ p.2 = tokens.count p.1 := by
  rw [rank_eq_map_take] at hp
  rcases List.mem_map.mp hp with ⟨e, he, rfl⟩
  have he' : e ∈ sortedCounts tokens :=
    List.Sublist.mem he (List.take_sublist n _)
  have hspec := sortedCounts_entry_spec he'
  exact ⟨hspec.1, hspec.2.1⟩

theorem length_rank (tokens : List String) (n : Nat) :
    (rank tokens n).length = min n tokens.toFinset.card := by
  unfold rank
  rw [List.length_take, List.length_map, length_sortedCounts]

/-- The entries of `rank` are ordered by count descending, and entries with
equal counts are ordered by the position of the word's first occurrence in
the token sequence (`List.indexOf` is the index of the first occurrence). -/
theorem rank_pairwise (tokens : List String) (n : Nat) :
    (rank tokens n).Pairwise (fun p q =>
      q.2 < p.2 ∨ (p.2 = q.2 ∧ tokens.indexOf p.1 < tokens.indexOf q.1)) := by
  rw [rank_eq_map_take, List.pairwise_map]
  have hs : (sortedCounts tokens).Pairwise mcRel := sorted_sortedCounts tokens
  have hn : (sortedCounts tokens).Pairwise (fun a b => a ≠ b) :=
    nodup_sortedCounts tokens
  have hcomb := hs.and hn
  have htake := List.Pairwise.sublist (List.take_sublist n _) hcomb
  refine htake.imp_of_mem ?_
  intro a b ha hb hab
  have ha' : a ∈ sortedCounts tokens :=
    List.Sublist.mem ha (List.take_sublist n _)
  have hb' : b ∈ sortedCounts tokens :=
    List.Sublist.mem hb (List.take_sublist n _)
  obtain ⟨haw, hac, hai⟩ := sortedCounts_entry_spec ha'
  obtain ⟨hbw, hbc, hbi⟩ := sortedCounts_entry_spec hb'
  rcases hab with ⟨hlt | ⟨heq, hle⟩, hne⟩
  · exact Or.inl hlt
  · right
    refine ⟨heq, ?_⟩
    have hfst : a.1 ≠ b.1 := fun h =>
      hne (enum_fst_inj (mem_sortedCounts.mp ha') (mem_sortedCounts.mp hb') h)
    have hidx : (firstOccs tokens).indexOf a.2.1 < (firstOccs tokens).indexOf b.2.1 := by
      rw [hai, hbi]
      omega
    exact (firstOccs_indexOf_lt_iff haw hbw).mp hidx

/-- Maximality: `rank` returns words of maximal count: any token of the sequence that is
left out of the ranking occurs at most as often as any ranked word. -/
theorem rank_maximal {tokens : List String} {n : Nat} {p : String × Nat}
    (hp : p ∈ rank tokens n) {w : String} (hw : w ∈ tokens)
    (hnot : w ∉ (rank tokens n).map Prod.fst) : tokens.count w ≤ p.2 := by
  have hwcp : (w, tokens.count w) ∈ countPairs tokens :=
    mem_countPairs.mpr ⟨hw, rfl⟩
  rcases List.mem_iff_getElem.mp hwcp with ⟨j, hj, hje⟩
  have hj' : j < (countPairs tokens).enum.length := by
    rwa [List.enum_length]
  have he : (j, (countPairs tokens)[j]) ∈ (countPairs tokens).enum := by
    have hgj := List.getElem_enum (countPairs tokens) j hj'
    rw [← hgj]
    exact List.getElem_mem hj'
  have heS : (j, (countPairs tokens)[j]) ∈ sortedCounts tokens :=
    mem_sortedCounts.mpr he
  have hsplit := List.take_append_drop n (sortedCounts tokens)
  have heS' : (j, (countPairs tokens)[j]) ∈
      (sortedCounts tokens).take n ++ (sortedCounts tokens).drop n := by
    rw [hsplit]
    exact heS
  rcases List.mem_append.mp heS' with hin | hin
  · exfalso
    apply hnot
    rw [rank_eq_map_take, List.map_map]
    refine List.mem_map.mpr ⟨(j, (countPairs tokens)[j]), hin, ?_⟩
    show ((countPairs tokens)[j]).1 = w
    rw [hje]
  · rw [rank_eq_map_take] at hp
    rcases List.mem_map.mp hp with ⟨ep, hep, rfl⟩
    have hpw : ((sortedCounts tokens).take n ++
        (sortedCounts tokens).drop n).Pairwise mcRel := by
      rw [hsplit]
      exact sorted_sortedCounts tokens
    have hrel : mcRel ep (j, (countPairs tokens)[j]) :=
      (List.pairwise_append.mp hpw).2.2 ep hep _ hin
    have hcw : ((countPairs tokens)[j]).2 = tokens.count w := by
      rw [hje]
    rcases hrel with h | h
    · have : tokens.count w < ep.2.2 := by
        rw [← hcw]
        exact h
      omega
    · have : ep.2.2 = tokens.count w := by
        rw [← hcw]
        exact h.1
      omega

/-! ### Ingestion and workflow embedding -/

/-- The upload-time page loop (app.py lines 70-77) starting from an already
accumulated `raw_text`: each page whose text is non-empty appends
`text + "\n"`; the `if text:` guard skips pages whose extraction yields no
text. -/
def extractUploadFrom (acc : String) (pages : List String) : String :=
  pages.foldl (fun a t => if t = "" then a else a ++ t ++ "\n") acc

/-- The `raw_text` produced by the upload loop for a single file's pages. -/
def extractUpload (pages : List String) : String :=
  extractUploadFrom "" pages

/-- The `raw_text` accumulated over a whole batch of uploaded files: the
loop of lines 69-77 runs over every file, appending every file's pages into
the one `raw_text` variable. -/
def rawTextOfUploads (files : List (List String)) : String :=
  files.foldl (fun acc pages => extractUploadFrom acc pages) ""

/-- The per-file `file_text` of the batch loop (app.py line 130):
`"".join([page.extract_text() for page in reader.pages if page.extract_text()])`. -/
def file_textOf (pages : List String) : String :=
  String.join (pages.filter (fun t => decide (t ≠ "")))

/-- The excerpt sent to the summarizer in the sheets branch:
`raw_text[:30000]` (app.py line 116). -/
def sheet_prompt_payload (raw_text : String) : String :=
  truncate raw_text 30000

/-- The excerpt sent to the summarizer per file in the batch branch:
`file_text[:25000]` (app.py line 138). -/
def file_prompt_payload (file_text : String) : String :=
  truncate file_text 25000

/-- One uploaded PDF in the batch loop (app.py lines 127-144). `readable`
models whether `PdfReader(uploaded_file)` succeeds (`false` = corrupt file:
the constructor raises); `api_response` is the external summarizer's reply
(`none` = the `client.chat.completions.create` call raised, which the
per-file `except` catches). -/
structure PdfFile where
  name : String
  readable : Bool
  pages : List String
  api_response : Option String

/-- The batch loop of app.py lines 127-144 over the remaining files,
threading the accumulated `st.session_state.summaries`. `PdfReader` runs
before — outside — the per-file `try`, so a corrupt file raises out of the
whole loop (`Except.error`, carrying the failing file's name); a summarizer
failure is caught by the per-file `except`, which logs and moves on, so it
only loses that one file's summary. -/
def runBatch : List PdfFile → List (String × String) →
    Except String (List (String × String))
  | [], acc => .ok acc
  | f :: fs, acc =>
    if f.readable then
      match f.api_response with
      | some s => runBatch fs (acc ++ [(f.name, s)])
      | none => runBatch fs acc
    else
      .error f.name

/-- The Google-Sheets branch of the workflow (app.py lines 105-122) plus the
display and dashboard sections: the sheet is one document named
`"Google_Sheet_Data"`; a summarizer failure is caught and logged, leaving no
summary; the dashboard is rendered only when at least one summary exists and
is computed from the full `raw_text`. There is no minimum-length check on
`raw_text` anywhere in this workflow. -/
def runSheets (raw_text : String) (api_response : Option String) :
    List (String × String) × Option Dashboard :=
  let summaries : List (String × String) :=
    match api_response with
    | some s => [("Google_Sheet_Data", s)]
    | none => []
  (summaries, if summaries.isEmpty then none else some (dashboard raw_text))

/-! ### Helper lemmas about string joining and the upload loop -/

theorem foldl_string_append (l : List String) :
    ∀ a : String, l.foldl (fun r s => r ++ s) a =
      a ++ l.foldl (fun r s => r ++ s) "" := by
  induction l with
  | nil => intro a; simp [String.append_empty]
  | cons s l ih =>
    intro a
    simp only [List.foldl_cons]
    rw [ih (a ++ s), ih ("" ++ s), String.empty_append, String.append_assoc]

theorem join_cons (s : String) (l : List String) :
    String.join (s :: l) = s ++ String.join l := by
  show (s :: l).foldl (fun r s => r ++ s) "" = s ++ l.foldl (fun r s => r ++ s) ""
  rw [List.foldl_cons, foldl_string_append, String.empty_append]

theorem extractUploadFrom_eq (pages : List String) :
    ∀ acc : String, extractUploadFrom acc pages =
      acc ++ String.join ((pages.filter (fun t => decide (t ≠ ""))).map
        (fun t => t ++ "\n")) := by
  induction pages with
  | nil =>
    intro acc
    simp [extractUploadFrom, String.join, String.append_empty]
  | cons p ps ih =>
    intro acc
    by_cases h : p = ""
    · subst h
      show extractUploadFrom acc ps = _
      rw [ih acc]
      simp
    · show extractUploadFrom (if p = "" then acc else acc ++ p ++ "\n") ps = _
      rw [if_neg h, ih (acc ++ p ++ "\n")]
      have : (p :: ps).filter (fun t => decide (t ≠ "")) =
          p :: ps.filter (fun t => decide (t ≠ "")) := by
        simp [List.filter_cons, h]
      rw [this, List.map_cons, join_cons, String.append_assoc, String.append_assoc,
        String.append_assoc]

/-! ### Claims -/

/-- C3 counterexample: with two pages extracting `"ab"` and `"cd"`, a
newline separator placed between consecutive pages would produce
`"ab\ncd"`; the upload loop instead appends a newline after every page
(yielding `"ab\ncd\n"`), and the batch loop's per-file join uses no
separator at all (yielding `"abcd"`). -/
theorem C3_counterexample :
    extractUpload ["ab", "cd"] = "ab\ncd\n" ∧
      file_textOf ["ab", "cd"] = "abcd" ∧
      extractUpload ["ab", "cd"] ≠ "ab\ncd" ∧
      file_textOf ["ab", "cd"] ≠ "ab\ncd" := by
  decide

/-- C3 (amended): pages whose extraction yields no text are skipped — they
contribute nothing and never raise — and the nonempty page texts are
concatenated: by the upload loop with a newline appended after every page
(including the last, so not a between-pages separator), and by the batch
loop's per-file join with no separator at all. -/
theorem C3_page_concatenation (pages ps qs : List String) :
    extractUpload pages =
      String.join ((pages.filter (fun t => decide (t ≠ ""))).map (fun t => t ++ "\n")) ∧
      file_textOf pages = String.join (pages.filter (fun t => decide (t ≠ ""))) ∧
      extractUpload (ps ++ "" :: qs) = extractUpload (ps ++ qs) ∧
      file_textOf (ps ++ "" :: qs) = file_textOf (ps ++ qs) := by
  refine ⟨?_, rfl, ?_, ?_⟩
  · unfold extractUpload
    rw [extractUploadFrom_eq, String.empty_append]
  · unfold extractUpload extractUploadFrom
    rw [List.foldl_append, List.foldl_append, List.foldl_cons]
    simp
  · unfold file_textOf
    rw [List.filter_append, List.filter_append, List.filter_cons]
    simp

/-- C6: for every document text and every limit, `truncate` returns the
first `limit` characters of the text, leaves the text unchanged (with no
error) whenever it is shorter than the limit, and is idempotent:
`truncate (truncate doc limit) limit = truncate doc limit`. -/
theorem C6_truncate_first_chars_idempotent (doc : String) (limit : Nat) :
    (truncate doc limit).toList = doc.toList.take limit ∧
      (doc.length < limit → truncate doc limit = doc) ∧
      truncate (truncate doc limit) limit = truncate doc limit := by
  refine ⟨rfl, ?_, ?_⟩
  · intro h
    unfold truncate
    rw [List.take_of_length_le]
    · rfl
    · have hlen : doc.length = doc.toList.length := rfl
      omega
  · show String.mk ((String.mk (doc.toList.take limit)).toList.take limit) = _
    have h : (String.mk (doc.toList.take limit)).toList = doc.toList.take limit := rfl
    rw [h, List.take_take, min_self]
    rfl

/-- C6 witness: `truncate` at a concrete short document and larger limit. -/
theorem C6_witness : truncate "hello" 10 = "hello" :=
  (C6_truncate_first_chars_idempotent "hello" 10).2.1 (by decide)

/-- C7 counterexample: the filter does not match stop-words
case-insensitively. `"This"` matches the stop-word `"this"` up to case and
is longer than 3 characters, so the claim says it is removed; the code's
membership test `w not in stop_words` is exact and case-sensitive, so it
survives. -/
theorem C7_counterexample :
    filterTokens ["This"] stop_words 3 = ["This"] ∧
      "this" ∈ stop_words ∧ 3 < ("This" : String).length := by
  decide

/-- C7 (amended): the filter removes exactly the tokens that are in the
stop-word set under an exact, case-sensitive match or whose length is at
most `min_length` (multiplicities of survivors are untouched), preserves
the relative order of survivors (the result is a sublist of the input), and
on the spec's example returns `["analysis","insight"]`. In the full
pipeline the tokens reaching the filter are already lowercased by
`tokenize`, which is what makes the end-to-end behavior insensitive to the
original text's case. -/
theorem C7_filter_exact_case_sensitive (tokens stopwords : List String)
    (min_length : Nat) (w : String) :
    ((filterTokens tokens stopwords min_length).count w =
      if w ∉ stopwords ∧ min_length < w.length then tokens.count w else 0) ∧
      (filterTokens tokens stopwords min_length).Sublist tokens ∧
      filterTokens ["the", "analysis", "of", "insight"] ["the", "of"] 3 =
        ["analysis", "insight"] := by
  refine ⟨?_, List.filter_sublist _, by decide⟩
  by_cases h : w ∉ stopwords ∧ min_length < w.length
  · rw [if_pos h]
    apply List.count_filter
    simp [h.1, h.2]
  · rw [if_neg h]
    rw [List.count_eq_zero]
    intro hmem
    rcases List.mem_filter.mp hmem with ⟨_, hpred⟩
    apply h
    simpa using hpred

/-- C8: the dashboard's unique-keyword metric equals the number of distinct
tokens in the filtered token sequence (the length of the deduplicated
first-occurrence list) and does not depend on the `top_n` used by `rank`. -/
theorem C8_unique_count_independent (text : String) (n m : Nat) :
    (dashboardOf text n).unique_keywords = (firstOccs (filteredWords text)).length ∧
      (dashboardOf text n).unique_keywords = (dashboardOf text m).unique_keywords := by
  constructor
  · show unique_count (filteredWords text) = _
    rw [length_firstOccs]
    rfl
  · rfl

/-- C9: the Keyword Analyzer (tokenize, filter, rank and unique count) is a
pure, fully deterministic function of the input text: two invocations on
the same input produce identical token sequences, filtered sequences,
rankings, counts, and dashboards. -/
theorem C9_analyzer_deterministic (text₁ text₂ : String) (n : Nat)
    (h : text₁ = text₂) :
    tokenize text₁ = tokenize text₂ ∧
      filteredWords text₁ = filteredWords text₂ ∧
      rank (filteredWords text₁) n = rank (filteredWords text₂) n ∧
      unique_count (filteredWords text₁) = unique_count (filteredWords text₂) ∧
      dashboardOf text₁ n = dashboardOf text₂ n := by
  subst h
  exact ⟨rfl, rfl, rfl, rfl, rfl⟩

/-- C9 witness: two invocations on the concrete text `"data analysis"`. -/
theorem C9_witness :
    tokenize "data analysis" = tokenize "data analysis" ∧
      filteredWords "data analysis" = filteredWords "data analysis" ∧
      rank (filteredWords "data analysis") 5 = rank (filteredWords "data analysis") 5 ∧
      unique_count (filteredWords "data analysis") =
        unique_count (filteredWords "data analysis") ∧
      dashboardOf "data analysis" 5 = dashboardOf "data analysis" 5 :=
  C9_analyzer_deterministic "data analysis" "data analysis" 5 rfl

/-- C2 counterexample: the workflow has no minimum-length guard. On the
9-character input `"ab cdefgh"` it raises nothing: it produces the sheet
summary (here the summarizer call succeeds) and a dashboard whose keyword
ranking is the non-empty `[("cdefgh", 1)]` — contradicting the claim that
it raises `EmptyInputError` and produces no summary and no ranking. -/
theorem C2_counterexample :
    ("ab cdefgh" : String).length = 9 ∧
      (runSheets "ab cdefgh" (some "SUMMARY")).1 =
        [("Google_Sheet_Data", "SUMMARY")] ∧
      (runSheets "ab cdefgh" (some "SUMMARY")).2 =
        some (dashboard "ab cdefgh") ∧
      (dashboard "ab cdefgh").word_counts = [("cdefgh", 1)] := by
  decide

/-- C2 (amended): the workflow performs no minimum-length check: on any
input shorter than 10 characters it still proceeds, producing the sheet
summary (when the summarizer call succeeds) and the dashboard ranking
computed from the raw text, and raises no error. -/
theorem C2_no_min_length_guard (raw_text : String) (s : String)
    (_h : raw_text.length < 10) :
    (runSheets raw_text (some s)).1 = [("Google_Sheet_Data", s)] ∧
      (runSheets raw_text (some s)).2 = some (dashboard raw_text) ∧
      (dashboard raw_text).word_counts = rank (filteredWords raw_text) 5 :=
  ⟨rfl, rfl, rfl⟩

/-- C2 witness: the amended claim at the 9-character input `"ab cdefgh"`. -/
theorem C2_witness :
    (runSheets "ab cdefgh" (some "S")).1 = [("Google_Sheet_Data", "S")] ∧
      (runSheets "ab cdefgh" (some "S")).2 = some (dashboard "ab cdefgh") ∧
      (dashboard "ab cdefgh").word_counts = rank (filteredWords "ab cdefgh") 5 :=
  C2_no_min_length_guard "ab cdefgh" "S" (by decide)

/-- C4: `rank tokens top_n` returns the `top_n` most frequent tokens: every
reported count is the token's exact occurrence count; entries are ordered
by count descending, ties broken by the order of first appearance in the
token sequence (`List.indexOf` gives the index of a token's first
occurrence); any token left out of the ranking occurs at most as often as
any ranked entry; the ranking holds `min top_n unique_count` entries; and
on the spec's example with `top_n = 2` the result is
`[("data", 3), ("analysis", 2)]`. -/
theorem C4_rank_top_n_ordering (tokens : List String) (top_n : Nat) :
    (∀ p ∈ rank tokens top_n, p.2 = tokens.count p.1) ∧
      (rank tokens top_n).Pairwise (fun p q =>
        q.2 < p.2 ∨ (p.2 = q.2 ∧ tokens.indexOf p.1 < tokens.indexOf q.1)) ∧
      (∀ p ∈ rank tokens top_n, ∀ w ∈ tokens,
        w ∉ (rank tokens top_n).map Prod.fst → tokens.count w ≤ p.2) ∧
      (rank tokens top_n).length = min top_n (unique_count tokens) ∧
      rank ["data", "data", "data", "analysis", "analysis", "insight"] 2 =
        [("data", 3), ("analysis", 2)] :=
  ⟨fun _ hp => (mem_rank hp).2, rank_pairwise tokens top_n,
    fun _ hp _ hw hnot => rank_maximal hp hw hnot,
    length_rank tokens top_n, by decide⟩

/-- C4 witness: the theorem applied to the spec's example token sequence,
with the membership hypothesis discharged at the entry `("data", 3)`. -/
theorem C4_witness :
    (("data", 3) : String × Nat).2 =
      (["data", "data", "data", "analysis", "analysis", "insight"] :
        List String).count "data" ∧
      rank ["data", "data", "data", "analysis", "analysis", "insight"] 2 =
        [("data", 3), ("analysis", 2)] :=
  ⟨(C4_rank_top_n_ordering
      ["data", "data", "data", "analysis", "analysis", "insight"] 2).1
      ("data", 3) (by decide),
    (C4_rank_top_n_ordering
      ["data", "data", "data", "analysis", "analysis", "insight"] 2).2.2.2.2⟩

/-- C5: every keyword count the dashboard reports is computed over the full
raw text aggregated across all uploaded documents: each entry of
`word_counts` carries the exact occurrence count of its word in the
filtered tokenization of the whole accumulated `raw_text` — not of the
`[:30000]` or `[:25000]` excerpts (those are only summarizer payloads), and
not of any single document. -/
theorem C5_counts_over_full_text (files : List (List String)) (top_n : Nat)
    (p : String × Nat)
    (hp : p ∈ (dashboardOf (rawTextOfUploads files) top_n).word_counts) :
    p.2 = (filteredWords (rawTextOfUploads files)).count p.1 := by
  have h : (dashboardOf (rawTextOfUploads files) top_n).word_counts =
      rank (filteredWords (rawTextOfUploads files)) top_n := rfl
  rw [h] at hp
  exact (mem_rank hp).2

/-- C5 witness: a two-file batch whose dashboard reports `("data", 2)`, the
count of `"data"` in the aggregate of both files' text. -/
theorem C5_witness :
    (("data", 2) : String × Nat).2 =
      (filteredWords (rawTextOfUploads [["data data"], ["insight"]])).count "data" :=
  C5_counts_over_full_text [["data data"], ["insight"]] 5 ("data", 2) (by decide)

/-- C10: for every input text, the ranking contains exactly
`min top_n unique_count` entries, and every ranked entry's word is
lowercase, longer than 3 characters, and not a stop word, with an
occurrence count of at least 1. -/
theorem C10_ranking_invariants (text : String) (top_n : Nat) :
    (rank (filteredWords text) top_n).length =
      min top_n (unique_count (filteredWords text)) ∧
      ∀ p ∈ rank (filteredWords text) top_n,
        (∀ c ∈ p.1.toList, c.toLower = c) ∧
          3 < p.1.length ∧ p.1 ∉ stop_words ∧ 1 ≤ p.2 := by
  refine ⟨length_rank _ _, ?_⟩
  intro p hp
  obtain ⟨hmem, hcount⟩ := mem_rank hp
  have hmem' : p.1 ∈ (tokenize text).filter
      (fun w => !(decide (w ∈ stop_words)) && decide (3 < w.length)) := hmem
  obtain ⟨htok, hpred⟩ := List.mem_filter.mp hmem'
  simp only [Bool.and_eq_true, Bool.not_eq_true', decide_eq_false_iff_not,
    decide_eq_true_eq] at hpred
  refine ⟨fun c hc => tokenize_lower htok hc, hpred.2, hpred.1, ?_⟩
  rw [hcount]
  exact List.count_pos_iff.mpr hmem

/-- C10 witness: the invariants at the concrete text
`"Data data analysis analysis wow"`, with the membership hypothesis
discharged at the ranked entry `("data", 2)`. -/
theorem C10_witness :
    (rank (filteredWords "Data data analysis analysis wow") 5).length =
      min 5 (unique_count (filteredWords "Data data analysis analysis wow")) ∧
      ((∀ c ∈ ("data" : String).toList, c.toLower = c) ∧
        3 < ("data" : String).length ∧ ("data" : String) ∉ stop_words ∧
        1 ≤ (2 : Nat)) :=
  ⟨(C10_ranking_invariants "Data data analysis analysis wow" 5).1,
    (C10_ranking_invariants "Data data analysis analysis wow" 5).2
      ("data", 2) (by decide)⟩

/-! ### The batch loop's error propagation (C1) -/

theorem runBatch_all_readable (files : List PdfFile) :
    ∀ acc : List (String × String), (∀ g ∈ files, g.readable) →
      runBatch files acc = .ok (acc ++ files.filterMap
        (fun g => g.api_response.map (fun s => (g.name, s)))) := by
  induction files with
  | nil =>
    intro acc _
    simp [runBatch]
  | cons g gs ih =>
    intro acc hall
    have hg : g.readable := hall g (List.mem_cons_self _ _)
    have hgs : ∀ x ∈ gs, x.readable :=
      fun x hx => hall x (List.mem_cons.mpr (Or.inr hx))
    simp only [runBatch]
    rw [if_pos hg]
    cases hr : g.api_response with
    | some s =>
      show runBatch gs (acc ++ [(g.name, s)]) = _
      rw [ih (acc ++ [(g.name, s)]) hgs]
      simp [List.filterMap_cons, hr, List.append_assoc]
    | none =>
      show runBatch gs acc = _
      rw [ih acc hgs]
      simp [List.filterMap_cons, hr]

theorem runBatch_aborts {f : PdfFile} (hf : ¬f.readable) :
    ∀ (pre post : List PdfFile) (acc : List (String × String)),
      (∀ g ∈ pre, g.readable) →
      runBatch (pre ++ f :: post) acc = .error f.name := by
  intro pre
  induction pre with
  | nil =>
    intro post acc _
    show runBatch (f :: post) acc = _
    simp only [runBatch]
    rw [if_neg hf]
  | cons g gs ih =>
    intro post acc hpre
    have hg : g.readable := hpre g (List.mem_cons_self _ _)
    have hgs : ∀ x ∈ gs, x.readable :=
      fun x hx => hpre x (List.mem_cons.mpr (Or.inr hx))
    show runBatch (g :: (gs ++ f :: post)) acc = _
    simp only [runBatch]
    rw [if_pos hg]
    cases hr : g.api_response with
    | some s =>
      show runBatch (gs ++ f :: post) (acc ++ [(g.name, s)]) = _
      exact ih post _ hgs
    | none =>
      show runBatch (gs ++ f :: post) acc = _
      exact ih post _ hgs

/-- C1 (amended): per-document *processing* (summarizer) failures are
independent — when every file in the batch is readable, the loop never
aborts and yields exactly the summaries of the files whose summarizer call
succeeded, whatever the other files' API outcomes; but a failure while
*extracting* (a corrupt file, whose `PdfReader` call raises outside the
per-file `try`) aborts the batch at that file, so siblings after it are
never processed and the run ends in an error instead of a summary map. -/
theorem C1_batch_error_propagation (files pre post : List PdfFile)
    (f : PdfFile) (acc : List (String × String))
    (hall : ∀ g ∈ files, g.readable) (hpre : ∀ g ∈ pre, g.readable)
    (hf : ¬f.readable) :
    runBatch files acc = .ok (acc ++ files.filterMap
        (fun g => g.api_response.map (fun s => (g.name, s)))) ∧
      runBatch (pre ++ f :: post) acc = .error f.name :=
  ⟨runBatch_all_readable files acc hall, runBatch_aborts hf pre post acc hpre⟩

/-- A perfectly readable, summarizable PDF. -/
def goodFile : PdfFile :=
  ⟨"good.pdf", true, ["hello world"], some "SUMMARY"⟩

/-- A corrupt PDF: `PdfReader` raises on it. -/
def badFile : PdfFile :=
  ⟨"bad.pdf", false, [], none⟩

/-- C1 counterexample: in a batch of two PDFs where the first is corrupt and
the second is perfectly readable, the batch loop aborts on the corrupt
file: the run ends in an error carrying the corrupt file's name, the
readable sibling is never processed, and no summary map is produced at all
— contradicting the claim that each document's failure is independent and
that siblings' summaries still appear. -/
theorem C1_counterexample :
    runBatch [badFile, goodFile] [] = .error "bad.pdf" ∧
      ¬∃ out, runBatch [badFile, goodFile] [] = .ok out := by
  have h1 : runBatch [badFile, goodFile] [] = .error "bad.pdf" := rfl
  refine ⟨h1, ?_⟩
  rintro ⟨out, hout⟩
  rw [h1] at hout
  exact Except.noConfusion hout

/-- C1 witness: the amended claim at a concrete batch — an all-readable
batch yields the good file's summary; a batch led by a corrupt file errors
out with that file's name. -/
theorem C1_witness :
    runBatch [goodFile] [] = .ok ([] ++ [goodFile].filterMap
        (fun g => g.api_response.map (fun s => (g.name, s)))) ∧
      runBatch ([] ++ badFile :: [goodFile]) [] = .error badFile.name :=
  C1_batch_error_propagation [goodFile] [] [goodFile] badFile []
    (by decide) (by decide) (by decide)

end AgentApp
